import Mathlib

/-!
Verification of the topic-segmentation engine of `group_topics.py`.

The Python module is shallowly embedded: dictionaries with "question" /
"answer" keys become the `QA` structure (absent keys become `none`, as
`dict.get(k, "")` supplies `""`), topic dictionaries become the `Topic`
structure, Python `set[str]` becomes `Finset String`, Python floats
(Jaccard ratios and thresholds) become `ℚ`.  Python loops with mutable
accumulators become structurally recursive functions carrying the
accumulator.  Names of the Python functions are kept.
-/

/-- One question/answer exchange.  The Python code reads a turn as a dict
via `qa.get("question", "")` / `qa.get("answer", "")`; a missing key is the
`none` case here. -/
structure QA where
  question : Option String
  answer : Option String
deriving DecidableEq

/-- One segment: `{"topic_name": ..., "qa_pairs": [...]}` in the Python code. -/
structure Topic where
  topic_name : String
  qa_pairs : List QA
deriving DecidableEq

instance : Inhabited Topic := ⟨⟨"", []⟩⟩

/-- The module-level `STOP_WORDS` set of `group_topics.py`, verbatim. -/
def STOP_WORDS : List String :=
  ["i", "me", "my", "myself", "we", "our", "ours", "ourselves", "you", "your",
   "yours", "yourself", "yourselves", "he", "him", "his", "himself", "she",
   "her", "hers", "herself", "it", "its", "itself", "they", "them", "their",
   "theirs", "themselves", "what", "which", "who", "whom", "this", "that",
   "these", "those", "am", "is", "are", "was", "were", "be", "been", "being",
   "have", "has", "had", "having", "do", "does", "did", "doing", "a", "an",
   "the", "and", "but", "if", "or", "because", "as", "until", "while", "of",
   "at", "by", "for", "with", "about", "against", "between", "into", "through",
   "during", "before", "after", "above", "below", "to", "from", "up", "down",
   "in", "out", "on", "off", "over", "under", "again", "further", "then",
   "once", "here", "there", "when", "where", "why", "how", "all", "each",
   "few", "more", "most", "other", "some", "such", "no", "nor", "not", "only",
   "own", "same", "so", "than", "too", "very", "s", "t", "can", "will", "just",
   "don", "should", "now", "d", "ll", "m", "o", "re", "ve", "y", "ain", "aren",
   "couldn", "didn", "doesn", "hadn", "hasn", "haven", "isn", "ma", "mightn",
   "mustn", "needn", "shan", "shouldn", "wasn", "weren", "won", "wouldn",
   "could", "would", "might", "must", "shall", "want", "like", "need", "also",
   "get", "got", "make", "made", "know", "think", "say", "said", "see", "look",
   "come", "go", "going", "one", "two", "first", "way", "may", "part", "use",
   "using", "used", "please", "help", "thanks", "thank", "okay", "ok", "yes",
   "yeah", "sure", "right", "well", "good", "great", "really", "actually",
   "basically", "something", "anything", "everything", "nothing", "someone",
   "anyone", "everyone", "thing", "things", "time", "much", "many", "even",
   "still", "back", "being", "trying", "try", "let", "give", "take", "put"]

/-- The module-level `TOPIC_KEYWORDS` dict of `group_topics.py`, in its
insertion order (Python dicts iterate in insertion order). -/
def TOPIC_KEYWORDS : List (String × List String) :=
  [("code", ["code", "programming", "function", "variable", "debug", "error", "bug", "script"]),
   ("api", ["api", "endpoint", "request", "response", "http", "rest", "fetch"]),
   ("design", ["design", "ui", "ux", "layout", "style", "css", "color", "font"]),
   ("database", ["database", "sql", "query", "table", "data", "schema", "mongodb"]),
   ("career", ["job", "interview", "resume", "career", "work", "company", "position"]),
   ("health", ["health", "medical", "symptom", "pain", "medication", "doctor", "treatment"]),
   ("finance", ["money", "investment", "stock", "price", "budget", "cost", "financial"]),
   ("writing", ["write", "email", "message", "draft", "letter", "text", "rephrase"]),
   ("translation", ["translate", "meaning", "chinese", "english", "spanish", "word"]),
   ("learning", ["learn", "study", "course", "understand", "explain", "concept"]),
   ("travel", ["travel", "trip", "flight", "hotel", "airport", "vacation"]),
   ("food", ["food", "recipe", "cook", "restaurant", "meal", "eat", "drink"]),
   ("relationships", ["relationship", "friend", "date", "love", "feel", "emotion"]),
   ("project", ["project", "app", "build", "create", "develop", "implement"]),
   ("advice", ["advice", "recommend", "suggest", "opinion", "think", "should"])]

/-- A CJK ideograph in the range the regex class `一-鿿` names. -/
def isCJK (c : Char) : Bool := 0x4e00 ≤ c.toNat && c.toNat ≤ 0x9fff

/-- A character of a regex `\w` run.  The source regex is applied to
lowercased text over basic Latin plus CJK (the scripts the spec limits the
tokenizer to), where `\w` is letters, digits, underscore and ideographs. -/
def isWordChar (c : Char) : Bool := c.isAlphanum || c == '_' || isCJK c

/-- A character the regex class `[a-zA-Z一-鿿]` accepts. -/
def isTokenChar (c : Char) : Bool := c.isAlpha || isCJK c

/-- Maximal runs of `\w` characters (`cur` is the current run, reversed).
`re.findall(r'\b[a-zA-Z一-鿿]+\b', text)` matches exactly the
maximal `\w` runs all of whose characters lie in the class: boundaries
exist only at the ends of a `\w` run. -/
def wordRunsAux (cur : List Char) : List Char → List (List Char)
  | [] => if cur.isEmpty then [] else [cur.reverse]
  | c :: cs =>
    if isWordChar c then wordRunsAux (c :: cur) cs
    else if cur.isEmpty then wordRunsAux [] cs
    else cur.reverse :: wordRunsAux [] cs

def wordRuns (l : List Char) : List (List Char) := wordRunsAux [] l

/-- `extract_keywords(text, min_length=3)`: lowercase, tokenize on the
word pattern, drop stop words and short words. -/
def extract_keywords (text : String) (min_length : Nat := 3) : List String :=
  if text = "" then []
  else
    let words := ((wordRuns (text.toList.map Char.toLower)).filter
      (fun r => r.all isTokenChar)).map (fun r => String.mk r)
    words.filter (fun w => w ∉ STOP_WORDS ∧ min_length ≤ w.length)

/-- `get_keyword_set(qa)`: keywords of the question plus the first 50
keywords of the answer, as a set. -/
def get_keyword_set (qa : QA) : Finset String :=
  let question_keywords := extract_keywords (qa.question.getD "")
  let answer_keywords := (extract_keywords (qa.answer.getD "")).take 50
  (question_keywords ++ answer_keywords).toFinset

/-- `calculate_similarity`: Jaccard index, `0` when either set is empty. -/
def calculate_similarity (keywords1 keywords2 : Finset String) : ℚ :=
  if keywords1 = ∅ ∨ keywords2 = ∅ then 0
  else
    let intersection := (keywords1 ∩ keywords2).card
    let union := (keywords1 ∪ keywords2).card
    if 0 < union then (intersection : ℚ) / (union : ℚ) else 0

/-- The keyword set of the turn at index `i` (`keyword_sets[i]` in the
Python code; out-of-range reads, which the source never performs, give `∅`). -/
def ksAt (qa_pairs : List QA) (i : Nat) : Finset String :=
  match qa_pairs.get? i with
  | some qa => get_keyword_set qa
  | none => ∅

/-- `cumulative_contexts[i]`: the union of the keyword sets of turns
`max(0, i-5) .. i` (the code's `range(start_idx, i + 1)` with
`start_idx = max(0, i - 5)`; truncated subtraction supplies the `max`). -/
def cumulativeContext (qa_pairs : List QA) (i : Nat) : Finset String :=
  (Finset.Ico (i - 5) (i + 1)).biUnion (fun j => ksAt qa_pairs j)

/-- `sim_prev` at position `i`. -/
def simPrev (qa_pairs : List QA) (i : Nat) : ℚ :=
  calculate_similarity (ksAt qa_pairs (i - 1)) (ksAt qa_pairs i)

/-- `sim_context` at position `i`: similarity of turn `i` to
`cumulative_contexts[i-1]`. -/
def simContext (qa_pairs : List QA) (i : Nat) : ℚ :=
  calculate_similarity (cumulativeContext qa_pairs (i - 1)) (ksAt qa_pairs i)

/-- `max_recent_sim` at position `i`: starts from `sim_prev` and folds in
the similarity to each turn in `max(0, i-3) .. i-1`. -/
def maxRecentSim (qa_pairs : List QA) (i : Nat) : ℚ :=
  (List.Ico (i - 3) i).foldl
    (fun m j => max m (calculate_similarity (ksAt qa_pairs j) (ksAt qa_pairs i)))
    (simPrev qa_pairs i)

/-- `best_similarity` at position `i`:
`max(sim_prev, sim_context * 0.8, max_recent_sim)`. -/
def bestSimilarity (qa_pairs : List QA) (i : Nat) : ℚ :=
  max (simPrev qa_pairs i)
    (max (simContext qa_pairs i * (8 / 10)) (maxRecentSim qa_pairs i))

/-- `next_sim_to_prev` at position `i`: similarity between turn `i-1` and
turn `i+1`, the veto signal.  (The source also computes
`next_sim_to_current`, which it never uses.) -/
def nextSimToPrev (qa_pairs : List QA) (i : Nat) : ℚ :=
  calculate_similarity (ksAt qa_pairs (i - 1)) (ksAt qa_pairs (i + 1))

/-- Position `i` is appended to `shifts`: the combined score is below the
threshold, and when a turn `i+1` exists the veto does not fire. -/
def shiftKept (qa_pairs : List QA) (threshold : ℚ) (i : Nat) : Prop :=
  bestSimilarity qa_pairs i < threshold ∧
    (i + 1 < qa_pairs.length → ¬ (threshold * 2 < nextSimToPrev qa_pairs i))

instance (qa_pairs : List QA) (threshold : ℚ) (i : Nat) :
    Decidable (shiftKept qa_pairs threshold i) := by
  unfold shiftKept; infer_instance

/-- `detect_topic_shifts(qa_pairs, threshold=0.05)`: the `for i in
range(1, len(qa_pairs))` loop appends exactly the kept positions, in
increasing order. -/
def detect_topic_shifts (qa_pairs : List QA) (threshold : ℚ := 1 / 20) : List Nat :=
  if qa_pairs.length ≤ 3 then []
  else (List.Ico 1 qa_pairs.length).filter
    (fun i => decide (shiftKept qa_pairs threshold i))

/-- `str.title()` for the strings involved: a cased character not preceded
by a cased character is uppercased, the rest are lowercased. -/
def titleAux : Bool → List Char → List Char
  | _, [] => []
  | prevAlpha, c :: cs =>
    (if c.isAlpha then (if prevAlpha then c.toLower else c.toUpper) else c) ::
      titleAux c.isAlpha cs

def pythonTitle (s : String) : String := String.mk (titleAux false s.toList)

/-- `Counter(all_keywords)[w]`. -/
def keywordCount (all_keywords : List String) (w : String) : Nat :=
  all_keywords.count w

/-- Stable insertion of `x` before the first element of strictly smaller
count (so equal counts keep their relative order). -/
def insertByCount (c : String → Nat) (x : String) : List String → List String
  | [] => [x]
  | y :: ys => if c y < c x then x :: y :: ys else y :: insertByCount c x ys

/-- `Counter.most_common(5)` keys: the distinct keywords in first-occurrence
order, stably sorted by descending count, first five. -/
def mostCommon5 (all_keywords : List String) : List String :=
  ((all_keywords.eraseDups).foldr (insertByCount (keywordCount all_keywords)) []).take 5

/-- `topic_scores`: each `TOPIC_KEYWORDS` entry scored by summed keyword
frequency, entries with score 0 dropped (insertion order kept). -/
def topicScores (all_keywords : List String) : List (String × Nat) :=
  (TOPIC_KEYWORDS.map (fun p =>
      (p.1, (p.2.map (keywordCount all_keywords)).sum))).filter
    (fun p => 0 < p.2)

/-- `max(topic_scores, key=topic_scores.get)`: the first key attaining the
maximal score (Python `max` keeps the earlier element on ties). -/
def bestTopic (scores : List (String × Nat)) : Option (String × Nat) :=
  scores.foldl
    (fun acc p => match acc with
      | none => some p
      | some q => if q.2 < p.2 then some p else some q)
    none

/-- The representative keywords of a topic label
(`TOPIC_KEYWORDS.get(best_topic, [])`). -/
def topicWordsOf (topic : String) : List String :=
  match TOPIC_KEYWORDS.find? (fun p => p.1 = topic) with
  | some p => p.2
  | none => []

/-- `generate_topic_name(qa_group, index)`. -/
def generate_topic_name (qa_group : List QA) (index : Nat) : String :=
  let all_keywords := qa_group.foldl
    (fun acc qa => acc ++ extract_keywords (qa.question.getD "")) []
  if all_keywords = [] then "Discussion " ++ toString (index + 1)
  else
    let top_keywords := mostCommon5 all_keywords
    match bestTopic (topicScores all_keywords) with
    | some best =>
      match top_keywords.find? (fun k => k ∉ topicWordsOf best.1) with
      | some distinctive => pythonTitle best.1 ++ ": " ++ pythonTitle distinctive
      | none => pythonTitle best.1
    | none =>
      match top_keywords with
      | k1 :: k2 :: _ => pythonTitle k1 ++ " & " ++ pythonTitle k2
      | [k1] => pythonTitle k1
      | [] => "Discussion " ++ toString (index + 1)

/-- The union of the keyword sets of a segment's turns (the
`curr_keywords` / `prev_keywords` / `next_keywords` accumulation loops in
`merge_small_topics`). -/
def topicKeywords (t : Topic) : Finset String :=
  t.qa_pairs.foldl (fun acc qa => acc ∪ get_keyword_set qa) ∅

/-- The `while i < len(topics)` loop of `merge_small_topics`, with the
`merged` accumulator kept reversed (its head is Python's `merged[-1]`).
First branch: a small segment merges into the previous finalized segment
when similar or when that one is itself small; second branch: a small
segment merges with the following raw segment when similar (which is then
skipped); otherwise the segment is kept as is. -/
def mergeSmallLoop (merged : List Topic) : List Topic → List Topic
  | [] => merged.reverse
  | current :: rest =>
    if current.qa_pairs.length < 3 then
      match merged with
      | prev :: mergedRest =>
        if calculate_similarity (topicKeywords current) (topicKeywords prev) > 2 / 100
            ∨ prev.qa_pairs.length < 3 then
          mergeSmallLoop
            (⟨generate_topic_name (prev.qa_pairs ++ current.qa_pairs) mergedRest.length,
              prev.qa_pairs ++ current.qa_pairs⟩ :: mergedRest) rest
        else
          match rest with
          | next_topic :: rest2 =>
            if calculate_similarity (topicKeywords current) (topicKeywords next_topic)
                > 2 / 100 then
              mergeSmallLoop
                (⟨generate_topic_name (current.qa_pairs ++ next_topic.qa_pairs)
                    (prev :: mergedRest).length,
                  current.qa_pairs ++ next_topic.qa_pairs⟩ :: prev :: mergedRest) rest2
            else mergeSmallLoop (current :: prev :: mergedRest) (next_topic :: rest2)
          | [] => mergeSmallLoop (current :: prev :: mergedRest) []
      | [] =>
        match rest with
        | next_topic :: rest2 =>
          if calculate_similarity (topicKeywords current) (topicKeywords next_topic)
              > 2 / 100 then
            mergeSmallLoop
              (⟨generate_topic_name (current.qa_pairs ++ next_topic.qa_pairs) 0,
                current.qa_pairs ++ next_topic.qa_pairs⟩ :: []) rest2
          else mergeSmallLoop (current :: []) (next_topic :: rest2)
        | [] => mergeSmallLoop (current :: []) []
    else mergeSmallLoop (current :: merged) rest
termination_by ts => ts.length
decreasing_by all_goals simp +arith

/-- `merge_small_topics(topics)`. -/
def merge_small_topics (topics : List Topic) : List Topic :=
  if topics.length ≤ 1 then topics else mergeSmallLoop [] topics

/-- The combined size of the adjacent pair at `i`
(`len(topics[i]["qa_pairs"]) + len(topics[i+1]["qa_pairs"])`). -/
def pairSize (topics : List Topic) (i : Nat) : Nat :=
  (topics.getD i default).qa_pairs.length + (topics.getD (i + 1) default).qa_pairs.length

/-- One step of the `min_size = inf` scan of
`merge_smallest_adjacent_topics`: `none` models the initial infinity, a
strict `<` keeps the earliest minimal pair. -/
def minPairStep (topics : List Topic) (acc : Option (Nat × Nat)) (i : Nat) :
    Option (Nat × Nat) :=
  match acc with
  | none => some (pairSize topics i, i)
  | some (m, b) =>
    if pairSize topics i < m then some (pairSize topics i, i) else some (m, b)

/-- The `merge_idx` the scan of `merge_smallest_adjacent_topics` settles on. -/
def findMergeIdx (topics : List Topic) : Nat :=
  match (List.range (topics.length - 1)).foldl (minPairStep topics) none with
  | some p => p.2
  | none => 0

/-- `merge_smallest_adjacent_topics(topics)`: the rebuild loop keeps
`topics[:k]`, appends the merged pair (renamed at its position `k`), skips
`topics[k+1]`, and keeps the rest unchanged. -/
def merge_smallest_adjacent_topics (topics : List Topic) : List Topic :=
  if topics.length ≤ 1 then topics
  else
    let merge_idx := findMergeIdx topics
    let combined := (topics.getD merge_idx default).qa_pairs ++
      (topics.getD (merge_idx + 1) default).qa_pairs
    topics.take merge_idx ++
      [⟨generate_topic_name combined merge_idx, combined⟩] ++
      topics.drop (merge_idx + 2)

theorem minPairStep_lt (topics : List Topic) (m : Nat) :
    ∀ (l : List Nat) (acc : Option (Nat × Nat)),
      (∀ i ∈ l, i < m) → (∀ q, acc = some q → q.2 < m) →
      ∀ p, l.foldl (minPairStep topics) acc = some p → p.2 < m := by
  intro l
  induction l with
  | nil => intro acc _ hacc p hp; exact hacc p hp
  | cons i l ih =>
    intro acc hl hacc p hp
    refine ih (minPairStep topics acc i) (fun j hj => hl j (List.mem_cons_of_mem _ hj))
      ?_ p hp
    intro q hq
    rcases acc with _ | ⟨m0, b0⟩
    · simp only [minPairStep, Option.some.injEq] at hq
      subst hq; exact hl i (List.mem_cons_self i l)
    · simp only [minPairStep] at hq
      split at hq <;> simp only [Option.some.injEq] at hq <;> subst hq
      · exact hl i (List.mem_cons_self i l)
      · exact hacc (m0, b0) rfl

theorem minPairStep_isSome (topics : List Topic) :
    ∀ (l : List Nat) (acc : Option (Nat × Nat)), acc.isSome ∨ l ≠ [] →
      (l.foldl (minPairStep topics) acc).isSome := by
  intro l
  induction l with
  | nil =>
    intro acc h
    rcases h with h | h
    · exact h
    · exact absurd rfl h
  | cons i l ih =>
    intro acc _
    refine ih (minPairStep topics acc i) (Or.inl ?_)
    rcases acc with _ | ⟨m0, b0⟩
    · rfl
    · simp only [minPairStep]
      split <;> rfl

theorem findMergeIdx_lt (topics : List Topic) (h : 1 < topics.length) :
    findMergeIdx topics < topics.length - 1 := by
  unfold findMergeIdx
  have hne : List.range (topics.length - 1) ≠ [] := by
    simp only [ne_eq, List.range_eq_nil]
    omega
  have hsome := minPairStep_isSome topics (List.range (topics.length - 1)) none
    (Or.inr hne)
  match hres : (List.range (topics.length - 1)).foldl (minPairStep topics) none with
  | none => rw [hres] at hsome; exact absurd hsome (by simp)
  | some p =>
    exact minPairStep_lt topics (topics.length - 1) (List.range (topics.length - 1))
      none (fun i hi => List.mem_range.mp hi) (by simp) p hres

theorem length_merge_smallest_adjacent (topics : List Topic)
    (h : 1 < topics.length) :
    (merge_smallest_adjacent_topics topics).length + 1 = topics.length := by
  have hk := findMergeIdx_lt topics h
  unfold merge_smallest_adjacent_topics
  rw [if_neg (by omega)]
  simp only [List.length_append, List.length_take, List.length_cons,
    List.length_nil, List.length_drop]
  omega

/-- The `for shift_idx in shifts` slicing loop of `group_qa_into_topics`:
`prev_idx` and the accumulated `topics` list are carried explicitly, and
the Python slice `qa_pairs[prev_idx:shift_idx]` is
`(qa_pairs.drop prev_idx).take (shift_idx - prev_idx)`.  The `[]` case is
the trailing `if prev_idx < len(qa_pairs)` append of the remaining turns. -/
def topicsFromShiftsAux (qa_pairs : List QA) (prev_idx : Nat) (acc : List Topic) :
    List Nat → List Topic
  | [] =>
    if prev_idx < qa_pairs.length then
      acc ++ [⟨generate_topic_name (qa_pairs.drop prev_idx) acc.length,
        qa_pairs.drop prev_idx⟩]
    else acc
  | shift_idx :: restShifts =>
    if prev_idx < shift_idx then
      topicsFromShiftsAux qa_pairs shift_idx
        (acc ++ [⟨generate_topic_name
            ((qa_pairs.drop prev_idx).take (shift_idx - prev_idx)) acc.length,
          (qa_pairs.drop prev_idx).take (shift_idx - prev_idx)⟩])
        restShifts
    else topicsFromShiftsAux qa_pairs prev_idx acc restShifts

def topicsFromShifts (qa_pairs : List QA) (shifts : List Nat) : List Topic :=
  topicsFromShiftsAux qa_pairs 0 [] shifts

/-- The `while len(merged_topics) > 1 and len(qa_pairs) / len(merged_topics) < 5`
loop of `group_qa_into_topics`; `total` is `len(qa_pairs)`. -/
def reduceLoop (total : Nat) (merged_topics : List Topic) : List Topic :=
  if h : 1 < merged_topics.length ∧
      (total : ℚ) / (merged_topics.length : ℚ) < 5 then
    reduceLoop total (merge_smallest_adjacent_topics merged_topics)
  else merged_topics
termination_by merged_topics.length
decreasing_by
  have := length_merge_smallest_adjacent merged_topics h.1
  omega

/-- `group_qa_into_topics(qa_pairs)`. -/
def group_qa_into_topics (qa_pairs : List QA) : List Topic :=
  if qa_pairs.isEmpty then []
  else if qa_pairs.length ≤ 5 then
    [⟨generate_topic_name qa_pairs 0, qa_pairs⟩]
  else if (detect_topic_shifts qa_pairs).isEmpty then
    [⟨generate_topic_name qa_pairs 0, qa_pairs⟩]
  else
    reduceLoop qa_pairs.length
      (merge_small_topics (topicsFromShifts qa_pairs (detect_topic_shifts qa_pairs)))

/-- Closed form of `calculate_similarity`: the inner `union > 0` guard is
redundant once both sets are non-empty. -/
theorem calculate_similarity_eq (A B : Finset String) :
    calculate_similarity A B =
      if A = ∅ ∨ B = ∅ then 0
      else ((A ∩ B).card : ℚ) / ((A ∪ B).card : ℚ) := by
  by_cases h : A = ∅ ∨ B = ∅
  · simp [calculate_similarity, h]
  · have hA : A ≠ ∅ := fun hA => h (Or.inl hA)
    have hpos : 0 < (A ∪ B).card :=
      Finset.card_pos.mpr
        ((Finset.nonempty_iff_ne_empty.mpr hA).mono Finset.subset_union_left)
    simp [calculate_similarity, h, hpos]

/-- C8: `calculate_similarity` is symmetric, lands in `[0, 1]`, is `1` on a
non-empty set against itself, and is `0` when either set is empty. -/
theorem claim_c8_similarity_symm_bounds (A B : Finset String) :
    calculate_similarity A B = calculate_similarity B A ∧
    0 ≤ calculate_similarity A B ∧ calculate_similarity A B ≤ 1 ∧
    (A ≠ ∅ → calculate_similarity A A = 1) ∧
    (A = ∅ ∨ B = ∅ → calculate_similarity A B = 0) := by
  refine ⟨?_, ?_, ?_, ?_, ?_⟩
  · rw [calculate_similarity_eq, calculate_similarity_eq,
      Finset.inter_comm, Finset.union_comm]
    by_cases h : A = ∅ ∨ B = ∅
    · rw [if_pos h, if_pos (Or.symm h)]
    · rw [if_neg h, if_neg (fun hc => h (Or.symm hc))]
  · rw [calculate_similarity_eq]
    split_ifs
    · exact le_refl 0
    · exact div_nonneg (by positivity) (by positivity)
  · rw [calculate_similarity_eq]
    split_ifs with h1
    · exact zero_le_one
    · have hA : A ≠ ∅ := fun hA => h1 (Or.inl hA)
      have hpos : 0 < (A ∪ B).card :=
        Finset.card_pos.mpr
          ((Finset.nonempty_iff_ne_empty.mpr hA).mono Finset.subset_union_left)
      rw [div_le_one (by exact_mod_cast hpos)]
      exact_mod_cast Finset.card_le_card Finset.inter_subset_union
  · intro hA
    rw [calculate_similarity_eq, if_neg (by tauto), Finset.inter_self,
      Finset.union_self]
    have hpos : 0 < A.card :=
      Finset.card_pos.mpr (Finset.nonempty_iff_ne_empty.mpr hA)
    exact div_self (Nat.cast_ne_zero.mpr hpos.ne')
  · intro h
    rw [calculate_similarity_eq, if_pos h]

/-- C9: the keyword extractor is total by construction; empty or absent
text yields no keywords, the keyword set of a turn with both fields
missing (or empty) is empty, and an empty keyword set has similarity `0`
to everything. -/
theorem claim_c9_empty_text_totality :
    (∀ min_length : Nat, extract_keywords "" min_length = []) ∧
    get_keyword_set ⟨none, none⟩ = ∅ ∧
    get_keyword_set ⟨some "", some ""⟩ = ∅ ∧
    ∀ B : Finset String,
      calculate_similarity (get_keyword_set ⟨none, none⟩) B = 0 ∧
      calculate_similarity B (get_keyword_set ⟨none, none⟩) = 0 := by
  have hempty : get_keyword_set ⟨none, none⟩ = ∅ := rfl
  refine ⟨fun n => by simp [extract_keywords], hempty, rfl, fun B => ⟨?_, ?_⟩⟩
  · rw [calculate_similarity_eq, if_pos (Or.inl hempty)]
  · rw [calculate_similarity_eq, if_pos (Or.inr hempty)]

/-- C7: a turn's keyword set is the keywords of its question text together
with at most the first 50 keywords of its answer text. -/
theorem claim_c7_keyword_set_shape (qa : QA) :
    get_keyword_set qa =
      (extract_keywords (qa.question.getD "")).toFinset ∪
        ((extract_keywords (qa.answer.getD "")).take 50).toFinset ∧
    ((extract_keywords (qa.answer.getD "")).take 50).length ≤ 50 := by
  constructor
  · unfold get_keyword_set
    exact List.toFinset_append
  · exact List.length_take_le 50 _

/-- Membership in the detector's output, for conversations long enough to
be scanned. -/
theorem mem_detect_topic_shifts (qa_pairs : List QA) (threshold : ℚ) (i : Nat)
    (h : ¬ qa_pairs.length ≤ 3) :
    i ∈ detect_topic_shifts qa_pairs threshold ↔
      (1 ≤ i ∧ i < qa_pairs.length) ∧ shiftKept qa_pairs threshold i := by
  unfold detect_topic_shifts
  rw [if_neg h]
  simp [List.mem_filter, List.Ico.mem]

/-- C4: the detector returns a strictly increasing (hence sorted and
duplicate-free) list of indices, never containing 0, and returns nothing
for sequences of length at most 3. -/
theorem claim_c4_detector_shape (qa_pairs : List QA) (threshold : ℚ) :
    List.Sorted (· < ·) (detect_topic_shifts qa_pairs threshold) ∧
    (detect_topic_shifts qa_pairs threshold).Nodup ∧
    0 ∉ detect_topic_shifts qa_pairs threshold ∧
    (qa_pairs.length ≤ 3 → detect_topic_shifts qa_pairs threshold = []) := by
  unfold detect_topic_shifts
  split_ifs with h
  · exact ⟨List.sorted_nil, List.nodup_nil, List.not_mem_nil 0, fun _ => rfl⟩
  · refine ⟨?_, ?_, ?_, fun hc => absurd hc h⟩
    · exact (List.Ico.pairwise_lt 1 qa_pairs.length).filter _
    · exact (List.Ico.nodup 1 qa_pairs.length).filter _
    · intro hc
      have hm := List.Ico.mem.mp (List.mem_of_mem_filter hc)
      omega

/-- C5: when the combined score at `i` is below the threshold, the
candidate is discarded exactly when the following turn reconnects to the
pre-shift turn with similarity above twice the threshold; with no
following turn the candidate is always kept. -/
theorem claim_c5_lookahead_veto (qa_pairs : List QA) (threshold : ℚ) (i : Nat)
    (hlen : 3 < qa_pairs.length) (h1 : 1 ≤ i) (hi : i < qa_pairs.length)
    (hraise : bestSimilarity qa_pairs i < threshold) :
    (i + 1 < qa_pairs.length →
      (i ∉ detect_topic_shifts qa_pairs threshold ↔
        threshold * 2 < nextSimToPrev qa_pairs i)) ∧
    (¬ i + 1 < qa_pairs.length → i ∈ detect_topic_shifts qa_pairs threshold) := by
  have hmem := mem_detect_topic_shifts qa_pairs threshold i (by omega)
  constructor
  · intro hnext
    rw [hmem]
    unfold shiftKept
    constructor
    · intro hnot
      by_contra hno
      exact hnot ⟨⟨h1, hi⟩, hraise, fun _ => hno⟩
    · intro hveto hkept
      exact hkept.2.2 hnext hveto
  · intro hnonext
    rw [hmem]
    exact ⟨⟨h1, hi⟩, hraise, fun hc => absurd hc hnonext⟩

/-- `calculate_similarity` is `0` whenever the two sets share nothing. -/
theorem calculate_similarity_eq_zero (A B : Finset String)
    (h : (A ∩ B).card = 0) : calculate_similarity A B = 0 := by
  rw [calculate_similarity_eq]
  split_ifs
  · rfl
  · rw [h, Nat.cast_zero, zero_div]

/-- Modelled from the spec sentence for C6: the context window it claims,
`[max(0, i-5), i-1]`, as a keyword-set union. -/
def specContextWindow (qa_pairs : List QA) (i : Nat) : Finset String :=
  (Finset.Ico (i - 5) i).biUnion (fun j => ksAt qa_pairs j)

/-- The context signal the C6 spec sentence describes. -/
def simContextSpec (qa_pairs : List QA) (i : Nat) : ℚ :=
  calculate_similarity (specContextWindow qa_pairs i) (ksAt qa_pairs i)

/-- A turn with the given question text and no answer. -/
def q (s : String) : QA := ⟨some s, none⟩

/-- Seven turns: the first and the last share keywords, the middle five
are pairwise disjoint from everything else. -/
def demoC6 : List QA :=
  [q "zebra stripes", q "apple", q "banana", q "cherry", q "durian", q "melon",
   q "zebra stripes"]

/-- C6, counterexample: at position 6 of `demoC6` the context signal the
code computes covers turns 0..5 (window `[max(0, i-6), i-1]`), not the
spec's turns 1..5, and the two similarity values differ. -/
theorem claim_c6_counterexample :
    simContext demoC6 6 ≠ simContextSpec demoC6 6 := by
  have hspec : simContextSpec demoC6 6 = 0 :=
    calculate_similarity_eq_zero _ _ (by decide)
  have hinter : (cumulativeContext demoC6 (6 - 1) ∩ ksAt demoC6 6).card = 2 := by
    decide
  have hunion : (cumulativeContext demoC6 (6 - 1) ∪ ksAt demoC6 6).card = 7 := by
    decide
  have hne : ¬ (cumulativeContext demoC6 (6 - 1) = ∅ ∨ ksAt demoC6 6 = ∅) := by
    decide
  have hcode : simContext demoC6 6 = 2 / 7 := by
    unfold simContext
    rw [calculate_similarity_eq, if_neg hne, hinter, hunion]
    norm_num
  rw [hcode, hspec]
  norm_num

/-- C6 as amended: for every position `i ≥ 1` the context signal equals
the similarity between turn `i`'s keyword set and the union of the keyword
sets of the turns in the window `[max(0, i-6), i-1]` — one turn wider than
the spec's `[max(0, i-5), i-1]`, because the code reuses
`cumulative_contexts[i-1]`, which itself looks five turns behind `i-1`. -/
theorem claim_c6_context_window (qa_pairs : List QA) (i : Nat) (h : 1 ≤ i) :
    simContext qa_pairs i =
      calculate_similarity
        ((Finset.Ico (i - 6) i).biUnion (fun j => ksAt qa_pairs j))
        (ksAt qa_pairs i) := by
  unfold simContext cumulativeContext
  have h1 : i - 1 - 5 = i - 6 := by omega
  have h2 : i - 1 + 1 = i := by omega
  rw [h1, h2]

/-- C6 witness: the amended window equation, instantiated at `demoC6`,
position 6. -/
theorem claim_c6_context_window_witness :
    simContext demoC6 6 =
      calculate_similarity
        ((Finset.Ico (6 - 6) 6).biUnion (fun j => ksAt demoC6 j))
        (ksAt demoC6 6) :=
  claim_c6_context_window demoC6 6 (by decide)

/-- C3: conversations of at most 5 turns are never segmented — the empty
conversation gives no segment, any other gives exactly the one segment
holding all its turns. -/
theorem claim_c3_short_conversation (qa_pairs : List QA)
    (h : qa_pairs.length ≤ 5) :
    group_qa_into_topics qa_pairs =
      if qa_pairs.isEmpty then []
      else [⟨generate_topic_name qa_pairs 0, qa_pairs⟩] := by
  unfold group_qa_into_topics
  by_cases he : qa_pairs.isEmpty
  · rw [if_pos he, if_pos he]
  · rw [if_neg he, if_neg he, if_pos h]

/-- Six turns over five distinct topics with no shared keywords. -/
def demoLong : List QA :=
  [q "apple orchard", q "banana plantation", q "cherry blossom",
   q "durian market", q "melon farm", q "papaya juice"]

/-- C3 witness: the short-conversation theorem at the first three turns of
`demoLong`. -/
theorem claim_c3_short_conversation_witness :
    group_qa_into_topics (demoLong.take 3) =
      if (demoLong.take 3).isEmpty then []
      else [⟨generate_topic_name (demoLong.take 3) 0, demoLong.take 3⟩] :=
  claim_c3_short_conversation (demoLong.take 3) (by decide)

/-- The concatenation, in order, of the turns of a segment list. -/
def concatQA : List Topic → List QA
  | [] => []
  | t :: ts => t.qa_pairs ++ concatQA ts

theorem concatQA_append (a b : List Topic) :
    concatQA (a ++ b) = concatQA a ++ concatQA b := by
  induction a with
  | nil => rfl
  | cons t ts ih => simp [concatQA, ih]

theorem concatQA_reverse_cons (t : Topic) (ts : List Topic) :
    concatQA ((t :: ts).reverse) = concatQA ts.reverse ++ t.qa_pairs := by
  rw [List.reverse_cons, concatQA_append]
  simp [concatQA]

theorem mergeSmallLoop_concat (merged ts : List Topic) :
    concatQA (mergeSmallLoop merged ts) =
      concatQA merged.reverse ++ concatQA ts := by
  induction merged, ts using mergeSmallLoop.induct with
  | case1 merged =>
    rw [mergeSmallLoop.eq_def]
    simp [concatQA]
  | case2 current rest hsmall prev mr hcond ih =>
    rw [mergeSmallLoop.eq_def]
    dsimp only
    rw [if_pos hsmall, if_pos hcond, ih]
    simp [concatQA, concatQA_append, List.append_assoc]
  | case3 current hsmall prev mr hncond nt rest2 hsim ih =>
    rw [mergeSmallLoop.eq_def]
    dsimp only
    rw [if_pos hsmall, if_neg hncond, if_pos hsim, ih]
    simp [concatQA, concatQA_append, List.append_assoc]
  | case4 current hsmall prev mr hncond nt rest2 hnsim ih =>
    rw [mergeSmallLoop.eq_def]
    dsimp only
    rw [if_pos hsmall, if_neg hncond, if_neg hnsim, ih]
    simp [concatQA, concatQA_append, List.append_assoc]
  | case5 current hsmall prev mr hncond ih =>
    rw [mergeSmallLoop.eq_def]
    dsimp only
    rw [if_pos hsmall, if_neg hncond, ih]
    simp [concatQA, concatQA_append, List.append_assoc]
  | case6 current hsmall nt rest2 hsim ih =>
    rw [mergeSmallLoop.eq_def]
    dsimp only
    rw [if_pos hsmall, if_pos hsim, ih]
    simp [concatQA, List.append_assoc]
  | case7 current hsmall nt rest2 hnsim ih =>
    rw [mergeSmallLoop.eq_def]
    dsimp only
    rw [if_pos hsmall, if_neg hnsim, ih]
    simp [concatQA, List.append_assoc]
  | case8 current hsmall ih =>
    rw [mergeSmallLoop.eq_def]
    dsimp only
    rw [if_pos hsmall, ih]
    simp [concatQA, List.append_assoc]
  | case9 merged current rest hbig ih =>
    rw [mergeSmallLoop.eq_def]
    dsimp only
    rw [if_neg hbig, ih]
    simp [concatQA, concatQA_append, List.append_assoc]

theorem merge_small_topics_concat (topics : List Topic) :
    concatQA (merge_small_topics topics) = concatQA topics := by
  unfold merge_small_topics
  split_ifs with h
  · rfl
  · rw [mergeSmallLoop_concat]
    rfl

theorem merge_smallest_adjacent_topics_concat (topics : List Topic) :
    concatQA (merge_smallest_adjacent_topics topics) = concatQA topics := by
  unfold merge_smallest_adjacent_topics
  split_ifs with h
  · rfl
  · have hk : findMergeIdx topics < topics.length - 1 :=
      findMergeIdx_lt topics (by omega)
    set k := findMergeIdx topics with hkdef
    have hk1 : k < topics.length := by omega
    have hk2 : k + 1 < topics.length := by omega
    rw [concatQA_append, concatQA_append]
    simp only [concatQA, List.append_nil]
    rw [List.getD_eq_getElem topics default hk1,
      List.getD_eq_getElem topics default hk2]
    conv_rhs => rw [← List.take_append_drop k topics]
    rw [concatQA_append, List.drop_eq_getElem_cons hk1,
      List.drop_eq_getElem_cons hk2]
    simp [concatQA, List.append_assoc]

theorem reduceLoop_concat (total : Nat) (ts : List Topic) :
    concatQA (reduceLoop total ts) = concatQA ts := by
  generalize hn : ts.length = n
  induction n using Nat.strong_induction_on generalizing ts with
  | _ n ih =>
    rw [reduceLoop]
    split_ifs with h
    · have hlen := length_merge_smallest_adjacent ts h.1
      rw [ih (merge_smallest_adjacent_topics ts).length (by omega)
        (merge_smallest_adjacent_topics ts) rfl,
        merge_smallest_adjacent_topics_concat]
    · rfl

theorem topicsFromShiftsAux_concat (qa_pairs : List QA) :
    ∀ (shifts : List Nat) (prev_idx : Nat) (acc : List Topic),
      concatQA acc ++ qa_pairs.drop prev_idx = qa_pairs →
      concatQA (topicsFromShiftsAux qa_pairs prev_idx acc shifts) = qa_pairs := by
  intro shifts
  induction shifts with
  | nil =>
    intro prev acc hinv
    unfold topicsFromShiftsAux
    split_ifs with h
    · rw [concatQA_append]
      simpa [concatQA] using hinv
    · have : qa_pairs.drop prev = [] := List.drop_eq_nil_of_le (by omega)
      rw [this, List.append_nil] at hinv
      exact hinv
  | cons shift restShifts ih =>
    intro prev acc hinv
    unfold topicsFromShiftsAux
    split_ifs with h
    · refine ih shift _ ?_
      rw [concatQA_append]
      simp only [concatQA, List.append_nil, List.append_assoc]
      have hsplit := List.drop_take_append_drop qa_pairs prev (shift - prev)
      rw [show prev + (shift - prev) = shift by omega] at hsplit
      rw [hsplit]
      exact hinv
    · exact ih prev acc hinv

theorem topicsFromShifts_concat (qa_pairs : List QA) (shifts : List Nat) :
    concatQA (topicsFromShifts qa_pairs shifts) = qa_pairs := by
  unfold topicsFromShifts
  exact topicsFromShiftsAux_concat qa_pairs shifts 0 [] (by simp [concatQA])

/-- C1: concatenating, in order, the turns of the segments returned by
`group_qa_into_topics` reproduces the input turn list exactly, through the
slicing step and both merge passes. -/
theorem claim_c1_partition_invariant (qa_pairs : List QA) :
    concatQA (group_qa_into_topics qa_pairs) = qa_pairs := by
  unfold group_qa_into_topics
  split_ifs with h1 h2 h3
  · simpa [concatQA] using (List.isEmpty_iff.mp h1).symm
  · simp [concatQA]
  · simp [concatQA]
  · rw [reduceLoop_concat, merge_small_topics_concat, topicsFromShifts_concat]

/-- Every segment of the list holds at least one turn. -/
def allNE (ts : List Topic) : Prop := ∀ t ∈ ts, t.qa_pairs ≠ []

theorem mergeSmallLoop_ne_nil (merged ts : List Topic) :
    merged ≠ [] ∨ ts ≠ [] → mergeSmallLoop merged ts ≠ [] := by
  induction merged, ts using mergeSmallLoop.induct with
  | case1 merged =>
    intro h
    rw [mergeSmallLoop.eq_def]
    dsimp only
    simp only [ne_eq, List.reverse_eq_nil_iff]
    exact h.resolve_right (fun hc => hc rfl)
  | case2 current rest hsmall prev mr hcond ih =>
    intro _
    rw [mergeSmallLoop.eq_def]
    dsimp only
    rw [if_pos hsmall, if_pos hcond]
    exact ih (Or.inl (List.cons_ne_nil _ _))
  | case3 current hsmall prev mr hncond nt rest2 hsim ih =>
    intro _
    rw [mergeSmallLoop.eq_def]
    dsimp only
    rw [if_pos hsmall, if_neg hncond, if_pos hsim]
    exact ih (Or.inl (List.cons_ne_nil _ _))
  | case4 current hsmall prev mr hncond nt rest2 hnsim ih =>
    intro _
    rw [mergeSmallLoop.eq_def]
    dsimp only
    rw [if_pos hsmall, if_neg hncond, if_neg hnsim]
    exact ih (Or.inl (List.cons_ne_nil _ _))
  | case5 current hsmall prev mr hncond ih =>
    intro _
    rw [mergeSmallLoop.eq_def]
    dsimp only
    rw [if_pos hsmall, if_neg hncond]
    exact ih (Or.inl (List.cons_ne_nil _ _))
  | case6 current hsmall nt rest2 hsim ih =>
    intro _
    rw [mergeSmallLoop.eq_def]
    dsimp only
    rw [if_pos hsmall, if_pos hsim]
    exact ih (Or.inl (List.cons_ne_nil _ _))
  | case7 current hsmall nt rest2 hnsim ih =>
    intro _
    rw [mergeSmallLoop.eq_def]
    dsimp only
    rw [if_pos hsmall, if_neg hnsim]
    exact ih (Or.inl (List.cons_ne_nil _ _))
  | case8 current hsmall ih =>
    intro _
    rw [mergeSmallLoop.eq_def]
    dsimp only
    rw [if_pos hsmall]
    exact ih (Or.inl (List.cons_ne_nil _ _))
  | case9 merged current rest hbig ih =>
    intro _
    rw [mergeSmallLoop.eq_def]
    dsimp only
    rw [if_neg hbig]
    exact ih (Or.inl (List.cons_ne_nil _ _))

theorem allNE_nil : allNE [] := fun t ht => absurd ht (List.not_mem_nil t)

theorem allNE_cons {t : Topic} {ts : List Topic} (h1 : t.qa_pairs ≠ [])
    (h2 : allNE ts) : allNE (t :: ts) :=
  List.forall_mem_cons.mpr ⟨h1, h2⟩

theorem allNE_cons_elim {t : Topic} {ts : List Topic} (h : allNE (t :: ts)) :
    t.qa_pairs ≠ [] ∧ allNE ts :=
  List.forall_mem_cons.mp h

theorem append_qa_ne_nil_left {a b : List QA} (h : a ≠ []) : a ++ b ≠ [] :=
  fun hc => h (List.append_eq_nil.mp hc).1

theorem mergeSmallLoop_allNE (merged ts : List Topic) :
    allNE merged → allNE ts → allNE (mergeSmallLoop merged ts) := by
  induction merged, ts using mergeSmallLoop.induct with
  | case1 merged =>
    intro hm _
    rw [mergeSmallLoop.eq_def]
    dsimp only
    exact fun t htm => hm t (List.mem_reverse.mp htm)
  | case2 current rest hsmall prev mr hcond ih =>
    intro hm ht
    rw [mergeSmallLoop.eq_def]
    dsimp only
    rw [if_pos hsmall, if_pos hcond]
    obtain ⟨hp, hmr⟩ := allNE_cons_elim hm
    exact ih (allNE_cons (append_qa_ne_nil_left hp) hmr) (allNE_cons_elim ht).2
  | case3 current hsmall prev mr hncond nt rest2 hsim ih =>
    intro hm ht
    rw [mergeSmallLoop.eq_def]
    dsimp only
    rw [if_pos hsmall, if_neg hncond, if_pos hsim]
    obtain ⟨hc, ht2⟩ := allNE_cons_elim ht
    exact ih (allNE_cons (append_qa_ne_nil_left hc) hm) (allNE_cons_elim ht2).2
  | case4 current hsmall prev mr hncond nt rest2 hnsim ih =>
    intro hm ht
    rw [mergeSmallLoop.eq_def]
    dsimp only
    rw [if_pos hsmall, if_neg hncond, if_neg hnsim]
    obtain ⟨hc, ht2⟩ := allNE_cons_elim ht
    exact ih (allNE_cons hc hm) ht2
  | case5 current hsmall prev mr hncond ih =>
    intro hm ht
    rw [mergeSmallLoop.eq_def]
    dsimp only
    rw [if_pos hsmall, if_neg hncond]
    obtain ⟨hc, _⟩ := allNE_cons_elim ht
    exact ih (allNE_cons hc hm) allNE_nil
  | case6 current hsmall nt rest2 hsim ih =>
    intro _ ht
    rw [mergeSmallLoop.eq_def]
    dsimp only
    rw [if_pos hsmall, if_pos hsim]
    obtain ⟨hc, ht2⟩ := allNE_cons_elim ht
    exact ih (allNE_cons (append_qa_ne_nil_left hc) allNE_nil) (allNE_cons_elim ht2).2
  | case7 current hsmall nt rest2 hnsim ih =>
    intro _ ht
    rw [mergeSmallLoop.eq_def]
    dsimp only
    rw [if_pos hsmall, if_neg hnsim]
    obtain ⟨hc, ht2⟩ := allNE_cons_elim ht
    exact ih (allNE_cons hc allNE_nil) ht2
  | case8 current hsmall ih =>
    intro _ ht
    rw [mergeSmallLoop.eq_def]
    dsimp only
    rw [if_pos hsmall]
    obtain ⟨hc, _⟩ := allNE_cons_elim ht
    exact ih (allNE_cons hc allNE_nil) allNE_nil
  | case9 merged current rest hbig ih =>
    intro hm ht
    rw [mergeSmallLoop.eq_def]
    dsimp only
    rw [if_neg hbig]
    obtain ⟨hc, ht2⟩ := allNE_cons_elim ht
    exact ih (allNE_cons hc hm) ht2

theorem merge_small_topics_allNE (topics : List Topic) (h : allNE topics) :
    allNE (merge_small_topics topics) := by
  unfold merge_small_topics
  split_ifs
  · exact h
  · exact mergeSmallLoop_allNE [] topics allNE_nil h

theorem merge_small_topics_ne_nil (topics : List Topic) (h : topics ≠ []) :
    merge_small_topics topics ≠ [] := by
  unfold merge_small_topics
  split_ifs
  · exact h
  · exact mergeSmallLoop_ne_nil [] topics (Or.inr h)

theorem merge_smallest_adjacent_topics_allNE (topics : List Topic)
    (h : allNE topics) : allNE (merge_smallest_adjacent_topics topics) := by
  unfold merge_smallest_adjacent_topics
  split_ifs with hlen
  · exact h
  · have hk : findMergeIdx topics < topics.length - 1 :=
      findMergeIdx_lt topics (by omega)
    intro t htm
    rw [List.mem_append, List.mem_append] at htm
    rcases htm with (htm | htm) | htm
    · exact h t ((List.take_sublist _ _).subset htm)
    · rw [List.mem_singleton] at htm
      subst htm
      refine append_qa_ne_nil_left (h _ ?_)
      rw [List.getD_eq_getElem topics default (by omega)]
      exact List.getElem_mem _
    · exact h t ((List.drop_sublist _ _).subset htm)

theorem merge_smallest_adjacent_topics_ne_nil (topics : List Topic)
    (h : topics ≠ []) : merge_smallest_adjacent_topics topics ≠ [] := by
  by_cases hlen : topics.length ≤ 1
  · unfold merge_smallest_adjacent_topics
    rw [if_pos hlen]
    exact h
  · have := length_merge_smallest_adjacent topics (by omega)
    intro hc
    rw [hc] at this
    simp at this
    omega

theorem reduceLoop_allNE (total : Nat) (ts : List Topic) (h : allNE ts) :
    allNE (reduceLoop total ts) := by
  generalize hn : ts.length = n
  induction n using Nat.strong_induction_on generalizing ts with
  | _ n ih =>
    rw [reduceLoop]
    split_ifs with hg
    · have hlen := length_merge_smallest_adjacent ts hg.1
      exact ih (merge_smallest_adjacent_topics ts).length (by omega)
        (merge_smallest_adjacent_topics ts)
        (merge_smallest_adjacent_topics_allNE ts h) rfl
    · exact h

theorem reduceLoop_ne_nil (total : Nat) (ts : List Topic) (h : ts ≠ []) :
    reduceLoop total ts ≠ [] := by
  generalize hn : ts.length = n
  induction n using Nat.strong_induction_on generalizing ts with
  | _ n ih =>
    rw [reduceLoop]
    split_ifs with hg
    · have hlen := length_merge_smallest_adjacent ts hg.1
      exact ih (merge_smallest_adjacent_topics ts).length (by omega)
        (merge_smallest_adjacent_topics ts)
        (merge_smallest_adjacent_topics_ne_nil ts h) rfl
    · exact h

theorem allNE_append_singleton {acc : List Topic} {t : Topic}
    (h : allNE acc) (ht : t.qa_pairs ≠ []) : allNE (acc ++ [t]) := by
  intro u hu
  rw [List.mem_append, List.mem_singleton] at hu
  rcases hu with hu | rfl
  · exact h u hu
  · exact ht

theorem topicsFromShiftsAux_allNE (qa_pairs : List QA) :
    ∀ (shifts : List Nat) (prev_idx : Nat) (acc : List Topic),
      prev_idx < qa_pairs.length →
      (∀ s ∈ shifts, s < qa_pairs.length) → allNE acc →
      allNE (topicsFromShiftsAux qa_pairs prev_idx acc shifts) ∧
        topicsFromShiftsAux qa_pairs prev_idx acc shifts ≠ [] := by
  intro shifts
  induction shifts with
  | nil =>
    intro prev acc hprev _ hacc
    unfold topicsFromShiftsAux
    rw [if_pos hprev]
    have hne : qa_pairs.drop prev ≠ [] := by
      intro hc
      rw [List.drop_eq_nil_iff] at hc
      omega
    exact ⟨allNE_append_singleton hacc hne, by simp⟩
  | cons shift restShifts ih =>
    intro prev acc hprev hs hacc
    unfold topicsFromShiftsAux
    split_ifs with h
    · have hshift : shift < qa_pairs.length := hs shift (List.mem_cons_self shift _)
      refine ih shift _ hshift (fun s hsm => hs s (List.mem_cons_of_mem _ hsm)) ?_
      refine allNE_append_singleton hacc ?_
      intro hc
      have := congrArg List.length hc
      simp only [List.length_take, List.length_drop, List.length_nil] at this
      omega
    · exact ih prev acc hprev (fun s hsm => hs s (List.mem_cons_of_mem _ hsm)) hacc

/-- All indices the detector returns are at least 1 and below the turn
count. -/
theorem detect_topic_shifts_mem_bounds (qa_pairs : List QA) (threshold : ℚ)
    (i : Nat) (h : i ∈ detect_topic_shifts qa_pairs threshold) :
    1 ≤ i ∧ i < qa_pairs.length := by
  unfold detect_topic_shifts at h
  split_ifs at h with hlen
  · exact absurd h (List.not_mem_nil i)
  · exact List.Ico.mem.mp (List.mem_of_mem_filter h)

/-- C10: a non-empty conversation always yields at least one segment, and
no segment is ever empty — through slicing and both merge passes. -/
theorem claim_c10_nonempty_segments (qa_pairs : List QA)
    (h : qa_pairs ≠ []) :
    group_qa_into_topics qa_pairs ≠ [] ∧
      ∀ t ∈ group_qa_into_topics qa_pairs, t.qa_pairs ≠ [] := by
  unfold group_qa_into_topics
  split_ifs with h1 h2 h3
  · exact absurd (List.isEmpty_iff.mp h1) h
  · refine ⟨by simp, ?_⟩
    intro t htm
    rw [List.mem_singleton] at htm
    subst htm
    exact h
  · refine ⟨by simp, ?_⟩
    intro t htm
    rw [List.mem_singleton] at htm
    subst htm
    exact h
  · have hbase := topicsFromShiftsAux_allNE qa_pairs
      (detect_topic_shifts qa_pairs) 0 []
      (by cases qa_pairs with
        | nil => exact absurd rfl h
        | cons a l => simp)
      (fun s hsm => (detect_topic_shifts_mem_bounds qa_pairs _ s hsm).2)
      allNE_nil
    constructor
    · exact reduceLoop_ne_nil _ _
        (merge_small_topics_ne_nil _ hbase.2)
    · exact reduceLoop_allNE _ _
        (merge_small_topics_allNE _ hbase.1)

/-- C10 witness: the non-emptiness guarantees at the six-turn `demoLong`. -/
theorem claim_c10_nonempty_segments_witness :
    group_qa_into_topics demoLong ≠ [] ∧
      ∀ t ∈ group_qa_into_topics demoLong, t.qa_pairs ≠ [] :=
  claim_c10_nonempty_segments demoLong (by decide)

/-- The reduction loop stops only when one segment is left or the average
segment size has reached 5. -/
theorem reduceLoop_exit (total : Nat) (ts : List Topic) :
    ¬ (1 < (reduceLoop total ts).length ∧
        (total : ℚ) / ((reduceLoop total ts).length : ℚ) < 5) := by
  generalize hn : ts.length = n
  induction n using Nat.strong_induction_on generalizing ts with
  | _ n ih =>
    rw [reduceLoop]
    split_ifs with hg
    · have hlen := length_merge_smallest_adjacent ts hg.1
      exact ih (merge_smallest_adjacent_topics ts).length (by omega)
        (merge_smallest_adjacent_topics ts) rfl
    · exact hg

/-- C2: a conversation of more than 5 turns ends with at most
`⌈N / 5⌉ = (N + 4) / 5` segments, and the reduction loop's exit condition
holds of the result: one segment left, or at least 5 turns per segment on
average. -/
theorem claim_c2_reduction_size_bound (qa_pairs : List QA)
    (h : 5 < qa_pairs.length) :
    (group_qa_into_topics qa_pairs).length ≤ (qa_pairs.length + 4) / 5 ∧
      ((group_qa_into_topics qa_pairs).length = 1 ∨
        5 * (group_qa_into_topics qa_pairs).length ≤ qa_pairs.length) := by
  have hne : qa_pairs ≠ [] := by
    intro hc
    rw [hc] at h
    simp at h
  unfold group_qa_into_topics
  split_ifs with h1 h2 h3
  · exact absurd (List.isEmpty_iff.mp h1) hne
  · omega
  · refine ⟨?_, Or.inl rfl⟩
    rw [List.length_singleton, Nat.le_div_iff_mul_le (by norm_num)]
    omega
  · have hbase := topicsFromShiftsAux_allNE qa_pairs
      (detect_topic_shifts qa_pairs) 0 []
      (by cases qa_pairs with
        | nil => exact absurd rfl hne
        | cons a l => simp)
      (fun s hsm => (detect_topic_shifts_mem_bounds qa_pairs _ s hsm).2)
      allNE_nil
    have hrne : reduceLoop qa_pairs.length
        (merge_small_topics (topicsFromShifts qa_pairs
          (detect_topic_shifts qa_pairs))) ≠ [] :=
      reduceLoop_ne_nil _ _ (merge_small_topics_ne_nil _ hbase.2)
    have hlen1 : 1 ≤ (reduceLoop qa_pairs.length
        (merge_small_topics (topicsFromShifts qa_pairs
          (detect_topic_shifts qa_pairs)))).length :=
      List.length_pos.mpr hrne
    have hexit := reduceLoop_exit qa_pairs.length
      (merge_small_topics (topicsFromShifts qa_pairs
        (detect_topic_shifts qa_pairs)))
    set L := (reduceLoop qa_pairs.length
      (merge_small_topics (topicsFromShifts qa_pairs
        (detect_topic_shifts qa_pairs)))).length with hL
    rcases not_and_or.mp hexit with hle | hge
    · have hL1 : L = 1 := by omega
      refine ⟨?_, Or.inl hL1⟩
      rw [hL1, Nat.le_div_iff_mul_le (by norm_num)]
      omega
    · have h5 : (5 : ℚ) ≤ (qa_pairs.length : ℚ) / (L : ℚ) := not_lt.mp hge
      have hLpos : (0 : ℚ) < (L : ℚ) := by exact_mod_cast hlen1
      rw [le_div_iff₀ hLpos] at h5
      have h5n : 5 * L ≤ qa_pairs.length := by exact_mod_cast h5
      refine ⟨?_, Or.inr h5n⟩
      rw [Nat.le_div_iff_mul_le (by norm_num)]
      omega

/-- C2 witness: the size bound at the six-turn `demoLong`. -/
theorem claim_c2_reduction_size_bound_witness :
    (group_qa_into_topics demoLong).length ≤ (demoLong.length + 4) / 5 ∧
      ((group_qa_into_topics demoLong).length = 1 ∨
        5 * (group_qa_into_topics demoLong).length ≤ demoLong.length) :=
  claim_c2_reduction_size_bound demoLong (by decide)

/-- C5 witness: the veto characterization at position 2 of `demoLong`,
whose combined score there is 0. -/
theorem claim_c5_lookahead_veto_witness :
    (2 + 1 < demoLong.length →
      (2 ∉ detect_topic_shifts demoLong (1 / 20) ↔
        (1 / 20) * 2 < nextSimToPrev demoLong 2)) ∧
    (¬ 2 + 1 < demoLong.length → 2 ∈ detect_topic_shifts demoLong (1 / 20)) :=
  claim_c5_lookahead_veto demoLong (1 / 20) 2 (by decide) (by decide) (by decide)
    (by
      have e1 : simPrev demoLong 2 = 0 :=
        calculate_similarity_eq_zero _ _ (by decide)
      have e2 : simContext demoLong 2 = 0 :=
        calculate_similarity_eq_zero _ _ (by decide)
      have e0 : calculate_similarity (ksAt demoLong 0) (ksAt demoLong 2) = 0 :=
        calculate_similarity_eq_zero _ _ (by decide)
      have e3 : calculate_similarity (ksAt demoLong 1) (ksAt demoLong 2) = 0 :=
        calculate_similarity_eq_zero _ _ (by decide)
      have hico : List.Ico (2 - 3) 2 = [0, 1] := by decide
      have hmr : maxRecentSim demoLong 2 = 0 := by
        unfold maxRecentSim
        rw [hico]
        simp only [List.foldl, e0, e3, e1, max_self]
      unfold bestSimilarity
      rw [e1, e2, hmr]
      norm_num)
